import Mathlib

/-!
Shallow embedding of the digital-diary Entry Store (src/diary.rs) and proofs
about its operations.  Strings are modelled as lists of characters; the SQLite
table is modelled as a list of rows plus the AUTOINCREMENT counter; SHA-256 is
implemented over `Nat` words reduced modulo 2^32.
-/

namespace DigitalDiary

/-- Rust `String` / `&str`, modelled as its list of characters. -/
abbrev Str := List Char

/-! ### SHA-256 (the `sha2` crate's `Sha256`), over byte lists -/

/-- Truncate to a 32-bit word. -/
def w32 (n : Nat) : Nat := n % 4294967296

/-- Rotate a 32-bit word right by `n` bits. -/
def rotr32 (n x : Nat) : Nat := w32 (x / 2 ^ n + x % 2 ^ n * 2 ^ (32 - n))

/-- Logical right shift of a 32-bit word. -/
def shr32 (n x : Nat) : Nat := x / 2 ^ n

/-- The SHA-256 round constants (FIPS 180-4), as decimal 32-bit values. -/
def K256 : List Nat :=
  [1116352408, 1899447441, 3049323471, 3921009573, 961987163, 1508970993,
   2453635748, 2870763221, 3624381080, 310598401, 607225278, 1426881987,
   1925078388, 2162078206, 2614888103, 3248222580, 3835390401, 4022224774,
   264347078, 604807628, 770255983, 1249150122, 1555081692, 1996064986,
   2554220882, 2821834349, 2952996808, 3210313671, 3336571891, 3584528711,
   113926993, 338241895, 666307205, 773529912, 1294757372, 1396182291,
   1695183700, 1986661051, 2177026350, 2456956037, 2730485921, 2820302411,
   3259730800, 3345764771, 3516065817, 3600352804, 4094571909, 275423344,
   430227734, 506948616, 659060556, 883997877, 958139571, 1322822218,
   1537002063, 1747873779, 1955562222, 2024104815, 2227730452, 2361852424,
   2428436474, 2756734187, 3204031479, 3329325298]

/-- The SHA-256 initial hash state (FIPS 180-4), as decimal 32-bit values. -/
def H256 : List Nat :=
  [1779033703, 3144134277, 1013904242, 2773480762,
   1359893119, 2600822924, 528734635, 1541459225]

/-- Pad a byte message to a multiple of 64 bytes, appending `0x80`, zeros and
the 64-bit big-endian bit length. -/
def padMessage (msg : List Nat) : List Nat :=
  let ml := msg.length * 8
  let zeros := (64 - (msg.length + 1) % 64 + 56) % 64
  msg ++ 0x80 :: List.replicate zeros 0 ++
    [ml / 2 ^ 56 % 256, ml / 2 ^ 48 % 256, ml / 2 ^ 40 % 256, ml / 2 ^ 32 % 256,
     ml / 2 ^ 24 % 256, ml / 2 ^ 16 % 256, ml / 2 ^ 8 % 256, ml % 256]

/-- Group bytes into big-endian 32-bit words. -/
def toWords : List Nat → List Nat
  | a :: b :: c :: d :: rest => (((a * 256 + b) * 256 + c) * 256 + d) :: toWords rest
  | _ => []

/-- Extend the 16-word message schedule by `n` further words. -/
def extendW : List Nat → Nat → List Nat
  | ws, 0 => ws
  | ws, n + 1 =>
    let l := ws.length
    let s0 :=
      let x := ws.getD (l - 15) 0
      rotr32 7 x ^^^ rotr32 18 x ^^^ shr32 3 x
    let s1 :=
      let x := ws.getD (l - 2) 0
      rotr32 17 x ^^^ rotr32 19 x ^^^ shr32 10 x
    extendW (ws ++ [w32 (ws.getD (l - 16) 0 + s0 + ws.getD (l - 7) 0 + s1)]) n

/-- The 64 compression rounds, consuming paired round constants and schedule
words and updating the eight-word working state. -/
def rounds : List (Nat × Nat) → List Nat → List Nat
  | [], st => st
  | (k, w) :: rest, st =>
    let a := st.getD 0 0
    let b := st.getD 1 0
    let c := st.getD 2 0
    let d := st.getD 3 0
    let e := st.getD 4 0
    let f := st.getD 5 0
    let g := st.getD 6 0
    let h := st.getD 7 0
    let s1 := rotr32 6 e ^^^ rotr32 11 e ^^^ rotr32 25 e
    let ch := (e &&& f) ^^^ ((e ^^^ 4294967295) &&& g)
    let t1 := w32 (h + s1 + ch + k + w)
    let s0 := rotr32 2 a ^^^ rotr32 13 a ^^^ rotr32 22 a
    let mj := (a &&& b) ^^^ (a &&& c) ^^^ (b &&& c)
    let t2 := w32 (s0 + mj)
    rounds rest [w32 (t1 + t2), a, b, c, w32 (d + t1), e, f, g]

/-- Process one 64-byte chunk into the running hash state. -/
def processChunk (h : List Nat) (chunk : List Nat) : List Nat :=
  let ws := extendW (toWords chunk) 48
  let st := rounds (K256.zip ws) h
  (h.zip st).map fun p => w32 (p.1 + p.2)

/-- Split a byte list into 64-byte chunks. -/
def chunksOf64 : List Nat → List (List Nat)
  | [] => []
  | x :: xs => (x :: xs.take 63) :: chunksOf64 (xs.drop 63)
termination_by l => l.length
decreasing_by simp; omega

/-- Big-endian bytes of a 32-bit word. -/
def wordBytes (w : Nat) : List Nat :=
  [w / 2 ^ 24 % 256, w / 2 ^ 16 % 256, w / 2 ^ 8 % 256, w % 256]

/-- SHA-256 digest (32 bytes) of a byte message. -/
def sha256 (msg : List Nat) : List Nat :=
  ((chunksOf64 (padMessage msg)).foldl processChunk H256).flatMap wordBytes

/-- UTF-8 encoding of one character. -/
def utf8Char (c : Char) : List Nat :=
  let n := c.toNat
  if n < 128 then [n]
  else if n < 2048 then [192 + n / 64, 128 + n % 64]
  else if n < 65536 then [224 + n / 4096, 128 + n / 64 % 64, 128 + n % 64]
  else [240 + n / 262144, 128 + n / 4096 % 64, 128 + n / 64 % 64, 128 + n % 64]

/-- UTF-8 encoding of a string, as hashed by `Sha256::update`. -/
def utf8Bytes (s : Str) : List Nat := s.flatMap utf8Char

/-! ### Rust string primitives used by `diary.rs` -/

/-- Rust `str::to_lowercase` (character-wise, as used on ASCII titles). -/
def toLowerStr (s : Str) : Str := s.map Char.toLower

/-- Whether `needle` is a leading segment of the second list. -/
def leadsList : Str → Str → Bool
  | [], _ => true
  | _ :: _, [] => false
  | a :: as, b :: bs => a = b && leadsList as bs

/-- Rust `str::contains(needle)`: substring containment. -/
def containsSub (needle : Str) : Str → Bool
  | [] => needle.isEmpty
  | h :: t => leadsList needle (h :: t) || containsSub needle t

/-- Rust `str::split(c)`: split at every occurrence of `c`; always yields at
least one (possibly empty) piece. -/
def splitOnChar (c : Char) : Str → List Str
  | [] => [[]]
  | x :: xs =>
    if x = c then [] :: splitOnChar c xs
    else
      match splitOnChar c xs with
      | [] => [[x]]
      | y :: ys => (x :: y) :: ys

/-- Rust `Vec::join` with a one-character separator. -/
def joinSep (c : Char) : List Str → Str
  | [] => []
  | [s] => s
  | s :: t :: rest => s ++ c :: joinSep c (t :: rest)

/-- Rust `Vec::dedup`: remove consecutive duplicates. -/
def dedupConsec {α : Type} [DecidableEq α] : List α → List α
  | [] => []
  | [a] => [a]
  | a :: b :: t => if a = b then dedupConsec (b :: t) else a :: dedupConsec (b :: t)

/-! ### Data model: the `entries` table and the `Entry` struct -/

/-- One row of the `entries` table: `keywords` is the stored semicolon-joined
text column. -/
structure Row where
  id : Int
  hash : List Nat
  date : Str
  keywords : Str
  title : Str
  content : Str
  hidden : Bool
deriving DecidableEq, Repr

/-- The in-memory `Entry` struct: `keywords` has been split on `';'`. -/
structure Entry where
  id : Int
  hash : List Nat
  date : Str
  keywords : List Str
  title : Str
  content : Str
  hidden : Bool
deriving DecidableEq, Repr

/-- The database state behind a `Diary` connection: the stored rows in rowid
order plus the AUTOINCREMENT counter for the `id` primary key. -/
structure Diary where
  rows : List Row
  nextId : Int
deriving DecidableEq, Repr

/-- `Diary::create`: a fresh empty table; AUTOINCREMENT starts assigning at 1. -/
def Diary.create : Diary := ⟨[], 1⟩

/-- The keyword normalisation done by `Diary::add`: `keywords.sort()` then
`keywords.dedup()`. -/
def normKeywords (ks : List Str) : List Str :=
  dedupConsec (List.insertionSort (· ≤ ·) ks)

/-- The digest computed by `Diary::add`: SHA-256 over the UTF-8 bytes of the
joined keywords, title, content and timestamp, in that order. -/
def entryHash (keywordsStr title content now : Str) : List Nat :=
  sha256 (utf8Bytes keywordsStr ++ utf8Bytes title ++ utf8Bytes content ++ utf8Bytes now)

/-- `Diary::add`: sort and dedup the keywords, join them with `';'`, hash, and
insert one row with `hidden = false`; `now` is the RFC-3339 timestamp string
`Local::now().to_rfc3339()`, passed explicitly here. -/
def Diary.add (d : Diary) (keywords : List Str) (title content now : Str) : Diary :=
  let ks := normKeywords keywords
  let keywordsStr := joinSep ';' ks
  let h := entryHash keywordsStr title content now
  { rows := d.rows ++ [⟨d.nextId, h, now, keywordsStr, title, content, false⟩],
    nextId := d.nextId + 1 }

/-- The keyword parsing done by `Diary::get_entries`: `k.split(';')`. -/
def parseKeywords (s : Str) : List Str := splitOnChar ';' s

/-- Turn a stored row into an `Entry`, as `Diary::get_entries` does per row. -/
def Row.toEntry (r : Row) : Entry :=
  ⟨r.id, r.hash, r.date, parseKeywords r.keywords, r.title, r.content, r.hidden⟩

/-- `Diary::get_entries`: `SELECT * FROM entries` in storage order. -/
def Diary.get_entries (d : Diary) : List Entry := d.rows.map Row.toEntry

/-! ### search -/

/-- `e.title.to_lowercase().contains(s)`. -/
def titleMatches (e : Entry) (s : Str) : Bool := containsSub s (toLowerStr e.title)

/-- The inner keyword loop of `Diary::search`: some keyword contains `s` as a
substring (`k.contains(s)`). -/
def keywordMatches (e : Entry) (s : Str) : Bool := e.keywords.any fun k => containsSub s k

/-- The per-entry term loop of `Diary::search`: scan the terms, stopping at the
first that matches the title or some keyword. -/
def entryFound (e : Entry) : List Str → Bool
  | [] => false
  | s :: rest =>
    if titleMatches e s then true
    else if keywordMatches e s then true
    else entryFound e rest

/-- The outer entry loop of `Diary::search`: push each entry that some term
matches, in storage order. -/
def searchLoop (searchfor : List Str) : List Entry → List Entry
  | [] => []
  | e :: rest =>
    if entryFound e searchfor then e :: searchLoop searchfor rest
    else searchLoop searchfor rest

/-- `Diary::search`: the `found` vector it passes on to `print_entries`. -/
def Diary.search (d : Diary) (searchfor : List Str) : List Entry :=
  searchLoop searchfor d.get_entries

/-- The spec's wording of the search contract, for comparison: the title
(case-insensitively) contains some term, or the keyword set contains some term
as an exact keyword match. -/
def searchSpecMatch (e : Entry) (terms : List Str) : Bool :=
  terms.any fun s => containsSub s (toLowerStr e.title) || e.keywords.contains s

/-! ### display -/

/-- The visibility filter of `Diary::print_entries`. -/
def visibleEntries (entries : List Entry) (hidden : Bool) : List Entry :=
  entries.filter fun a => !a.hidden || hidden

/-- `Diary::print_entries`, modelled by its observable output: the list of
entries it renders and the trailing counter it reports.  The `date`, `id`,
`hash`, `keywords` and `content` toggles only select which fields get printed
per shown entry; they do not affect which entries are shown or the count. -/
def print_entries (entries : List Entry)
    (date id hash keywords content hidden : Bool) : List Entry × Nat :=
  let shown := visibleEntries entries hidden
  (shown, shown.length)

/-- `Diary::list_all`: fetch everything, then display. -/
def Diary.list_all (d : Diary)
    (date id hash keywords content hidden : Bool) : List Entry × Nat :=
  print_entries d.get_entries date id hash keywords content hidden

/-! ### hide -/

/-- One `UPDATE entries SET hidden = ?1 WHERE id = ?2` statement: the updated
rows and the statement's change count (SQLite counts every row matched by the
WHERE clause). -/
def execUpdate (rows : List Row) (set : Bool) (i : Int) : List Row × Nat :=
  (rows.map fun r => if r.id = i then { r with hidden := set } else r,
   (rows.filter fun r => r.id = i).length)

/-- `Diary::hide`: run one UPDATE per id in order, accumulating the change
counter. -/
def Diary.hide (d : Diary) (ids : List Int) (set : Bool) : Diary × Nat :=
  match ids with
  | [] => (d, 0)
  | i :: rest =>
    let u := execUpdate d.rows set i
    let p := Diary.hide ⟨u.1, d.nextId⟩ rest set
    (p.1, u.2 + p.2)

/-- A sequence of `add` calls, as in repeated `didi add` invocations. -/
def applyAdds (d : Diary) : List (List Str × Str × Str × Str) → Diary
  | [] => d
  | (ks, t, c, n) :: ops => applyAdds (d.add ks t c n) ops

/-! ### Concrete stores used as evaluation inputs -/

/-- A stored row whose title does not contain "cat" but whose keyword
"catalog" does. -/
def dogRow : Row := ⟨1, [], [], "catalog".toList, "Dog walk".toList, [], false⟩

/-- A one-row store holding `dogRow`. -/
def dogDiary : Diary := ⟨[dogRow], 2⟩

/-- A store with one visible and one hidden row. -/
def mixedDiary : Diary :=
  ⟨[⟨1, [], [], "cat".toList, "My cat diary".toList, [], false⟩,
    ⟨2, [], [], "dog".toList, "Dog walk".toList, [], true⟩], 3⟩

/-! ### Lemmas about `search` -/

/-- The per-entry term loop accepts exactly the entries some term matches. -/
theorem entryFound_iff (e : Entry) (terms : List Str) :
    entryFound e terms = true ↔
      ∃ s ∈ terms, titleMatches e s = true ∨ keywordMatches e s = true := by
  induction terms with
  | nil => simp [entryFound]
  | cons s rest ih =>
    by_cases h1 : titleMatches e s
    · simp [entryFound, h1]
    · by_cases h2 : keywordMatches e s
      · simp [entryFound, h1, h2]
      · simp [entryFound, h1, h2, ih]

/-- The outer entry loop is a filter over the entries in storage order. -/
theorem searchLoop_eq_filter (terms : List Str) (l : List Entry) :
    searchLoop terms l = l.filter fun e => entryFound e terms := by
  induction l with
  | nil => simp [searchLoop]
  | cons e rest ih =>
    by_cases h : entryFound e terms <;> simp [searchLoop, h, ih]

/-- C1 counterexample: on the store holding only `dogRow` (title "Dog walk",
keywords {"catalog"}), searching for the lowercase term "cat" returns the
entry, yet the entry neither contains "cat" in its title (case-insensitively)
nor has "cat" as an exact keyword, so search does not return exactly the
entries the claim describes. -/
theorem search_exact_keyword_cex :
    dogDiary.search ["cat".toList] = [dogRow.toEntry] ∧
      searchSpecMatch dogRow.toEntry ["cat".toList] = false := by
  constructor <;> rfl

/-- C1 amended: search returns exactly those entries whose lowercased title
contains some term as a substring, or some of whose keywords contains some
term as a substring (not necessarily as an exact keyword match). -/
theorem search_mem_iff (d : Diary) (terms : List Str) (e : Entry) :
    e ∈ d.search terms ↔
      e ∈ d.get_entries ∧
        ∃ s ∈ terms, containsSub s (toLowerStr e.title) = true ∨
          ∃ k ∈ e.keywords, containsSub s k = true := by
  rw [Diary.search, searchLoop_eq_filter, List.mem_filter, entryFound_iff]
  simp [titleMatches, keywordMatches, List.any_eq_true]

/-- C6: the search result is a sublist of the stored entries (hence in storage
order), and, when stored ids are distinct, every id and every entry appears at
most once in the result even when several terms match one entry. -/
theorem search_once_in_order (d : Diary) (terms : List Str)
    (h : (d.get_entries.map Entry.id).Nodup) :
    (d.search terms).Sublist d.get_entries ∧
      ((d.search terms).map Entry.id).Nodup ∧
      ∀ e : Entry, (d.search terms).count e ≤ 1 := by
  have hsub : (d.search terms).Sublist d.get_entries := by
    rw [Diary.search, searchLoop_eq_filter]
    exact List.filter_sublist _
  have hids : ((d.search terms).map Entry.id).Nodup :=
    (hsub.map Entry.id).nodup h
  exact ⟨hsub, hids, fun e => List.nodup_iff_count_le_one.mp hids.of_map e⟩

/-- C6 witness: the theorem evaluated on the concrete store `dogDiary` and the
term list ["cat"]. -/
theorem search_once_in_order_wit :
    (dogDiary.search ["cat".toList]).Sublist dogDiary.get_entries ∧
      ((dogDiary.search ["cat".toList]).map Entry.id).Nodup ∧
      ∀ e : Entry, (dogDiary.search ["cat".toList]).count e ≤ 1 :=
  search_once_in_order dogDiary ["cat".toList] (by decide)

/-! ### Lemmas about splitting, joining and keyword normalisation -/

/-- Splitting never yields an empty list of pieces. -/
theorem splitOnChar_ne_nil (c : Char) (s : Str) : splitOnChar c s ≠ [] := by
  induction s with
  | nil => simp [splitOnChar]
  | cons x xs ih =>
    by_cases h : x = c
    · simp [splitOnChar, h]
    · simp only [splitOnChar, if_neg h]
      cases hs : splitOnChar c xs with
      | nil => simp
      | cons y ys => simp

/-- A string free of the separator splits into itself. -/
theorem splitOnChar_no_sep (c : Char) (s : Str) (h : c ∉ s) : splitOnChar c s = [s] := by
  induction s with
  | nil => rfl
  | cons x xs ih =>
    have hx : ¬x = c := fun he => h (he ▸ List.mem_cons_self x xs)
    have hxs : c ∉ xs := fun hm => h (List.mem_cons_of_mem x hm)
    simp [splitOnChar, hx, ih hxs]

/-- Splitting a separator-free piece followed by the separator peels it off. -/
theorem splitOnChar_append_sep (c : Char) (s t : Str) (h : c ∉ s) :
    splitOnChar c (s ++ c :: t) = s :: splitOnChar c t := by
  induction s with
  | nil => simp [splitOnChar]
  | cons x xs ih =>
    have hx : ¬x = c := fun he => h (he ▸ List.mem_cons_self x xs)
    have hxs : c ∉ xs := fun hm => h (List.mem_cons_of_mem x hm)
    simp only [List.cons_append, splitOnChar, List.append_eq, if_neg hx, ih hxs]

/-- Splitting undoes joining for a nonempty list of separator-free pieces. -/
theorem split_join (c : Char) : ∀ l : List Str, l ≠ [] → (∀ s ∈ l, c ∉ s) →
    splitOnChar c (joinSep c l) = l := by
  intro l
  induction l with
  | nil => intro hne; cases hne rfl
  | cons s rest ih =>
    intro _ h
    cases rest with
    | nil => exact splitOnChar_no_sep c s (h s (List.mem_cons_self s _))
    | cons t r =>
      have h1 : joinSep c (s :: t :: r) = s ++ c :: joinSep c (t :: r) := rfl
      rw [h1, splitOnChar_append_sep c s (joinSep c (t :: r)) (h s (List.mem_cons_self s _)),
        ih (by simp) fun u hu => h u (List.mem_cons_of_mem s hu)]

/-- Removing consecutive duplicates preserves membership. -/
theorem mem_dedupConsec {α : Type} [DecidableEq α] (a : α) :
    ∀ l : List α, a ∈ dedupConsec l ↔ a ∈ l := by
  intro l
  induction l with
  | nil => simp [dedupConsec]
  | cons b t ih =>
    cases t with
    | nil => simp [dedupConsec]
    | cons v r =>
      by_cases h : b = v
      · subst h
        have hd : dedupConsec (b :: b :: r) = dedupConsec (b :: r) := by
          simp [dedupConsec]
        rw [hd, ih]
        simp only [List.mem_cons]
        tauto
      · simp only [dedupConsec, if_neg h, List.mem_cons]
        rw [ih]
        simp [List.mem_cons]

/-- Removing consecutive duplicates keeps a nonempty list nonempty. -/
theorem dedupConsec_ne_nil {α : Type} [DecidableEq α] :
    ∀ l : List α, l ≠ [] → dedupConsec l ≠ [] := by
  intro l
  induction l with
  | nil => intro hne; cases hne rfl
  | cons b t ih =>
    intro _
    cases t with
    | nil => simp [dedupConsec]
    | cons v r =>
      by_cases h : b = v
      · simp only [dedupConsec, if_pos h]
        exact ih (by simp)
      · simp [dedupConsec, if_neg h]

/-- Consecutive dedup of a weakly sorted list is strictly sorted. -/
theorem sorted_lt_dedupConsec :
    ∀ l : List Str, l.Sorted (· ≤ ·) → (dedupConsec l).Sorted (· < ·) := by
  intro l
  induction l with
  | nil => intro _; simp [dedupConsec]
  | cons a t ih =>
    intro hs
    cases t with
    | nil => simp [dedupConsec]
    | cons b r =>
      have hs' : (b :: r).Sorted (· ≤ ·) := hs.of_cons
      by_cases h : a = b
      · simp only [dedupConsec, if_pos h]
        exact ih hs'
      · simp only [dedupConsec, if_neg h]
        refine List.sorted_cons.mpr ⟨?_, ih hs'⟩
        intro x hx
        have hxm : x ∈ b :: r := (mem_dedupConsec x _).mp hx
        have hab : a ≤ b := (List.sorted_cons.mp hs).1 b (List.mem_cons_self _ _)
        have hax : a ≤ x := (List.sorted_cons.mp hs).1 x hxm
        have hbx : b ≤ x := by
          rcases List.mem_cons.mp hxm with he | hm
          · exact he ▸ le_refl b
          · exact (List.sorted_cons.mp hs').1 x hm
        rcases lt_or_eq_of_le hax with hlt | heq
        · exact hlt
        · exact absurd (le_antisymm hab (heq ▸ hbx)) h

/-- The normalised keyword list is weakly sorted, duplicate-free and has
exactly the members of the input. -/
theorem normKeywords_spec (ks : List Str) :
    (normKeywords ks).Sorted (· ≤ ·) ∧ (normKeywords ks).Nodup ∧
      ∀ k, k ∈ normKeywords ks ↔ k ∈ ks := by
  have hs : (List.insertionSort (· ≤ ·) ks).Sorted (· ≤ ·) :=
    List.sorted_insertionSort _ ks
  have hlt := sorted_lt_dedupConsec _ hs
  refine ⟨hlt.imp fun hab => le_of_lt hab, hlt.imp fun hab => ne_of_lt hab, fun k => ?_⟩
  rw [normKeywords, mem_dedupConsec, List.mem_insertionSort]

/-- Normalisation keeps a nonempty keyword list nonempty. -/
theorem normKeywords_ne_nil (ks : List Str) (h : ks ≠ []) : normKeywords ks ≠ [] := by
  refine dedupConsec_ne_nil _ fun he => h ?_
  have := (List.perm_insertionSort (· ≤ ·) ks).length_eq
  rw [he] at this
  exact List.length_eq_zero.mp this.symm

/-- C3: for every (keywords, title, content) triple (and timestamp), `add`
appends exactly one new row — the previous rows are untouched — whose stored
keywords are the input sorted with duplicates removed (weakly sorted,
duplicate-free, same members, joined with ';') and whose hidden flag is
false. -/
theorem add_appends_normalized (d : Diary) (ks : List Str) (t c now : Str) :
    (d.add ks t c now).rows =
      d.rows ++ [⟨d.nextId, entryHash (joinSep ';' (normKeywords ks)) t c now, now,
        joinSep ';' (normKeywords ks), t, c, false⟩] ∧
      (normKeywords ks).Sorted (· ≤ ·) ∧ (normKeywords ks).Nodup ∧
      ∀ k, k ∈ normKeywords ks ↔ k ∈ ks :=
  ⟨rfl, normKeywords_spec ks⟩

/-- C2 counterexample: an entry written by `add` with the empty keyword list
is read back with keywords `[""]`, which is not byte-identical to the sorted
normalised input `[]`. -/
theorem add_roundtrip_cex :
    (Diary.create.add [] "t".toList "c".toList "now".toList).get_entries.map Entry.keywords
        = [[([] : Str)]] ∧
      normKeywords [] = ([] : List Str) ∧ [([] : Str)] ≠ ([] : List Str) :=
  ⟨rfl, rfl, by simp⟩

/-- C2 amended: for every entry written by `add` with a nonempty keyword list
none of whose keywords contains the separator ';', reading the store back
yields that entry with byte-identical keywords in the same sorted-list order
and the unchanged stored hash; an empty keyword list instead reads back as the
single empty keyword. -/
theorem add_roundtrip (d : Diary) (ks : List Str) (t c now : Str)
    (hne : ks ≠ []) (hsem : ∀ k ∈ ks, ';' ∉ k) :
    (d.add ks t c now).get_entries =
      d.get_entries ++ [⟨d.nextId, entryHash (joinSep ';' (normKeywords ks)) t c now, now,
        normKeywords ks, t, c, false⟩] := by
  have hmem := (normKeywords_spec ks).2.2
  have hsem' : ∀ k ∈ normKeywords ks, ';' ∉ k := fun k hk => hsem k ((hmem k).mp hk)
  have hne' : normKeywords ks ≠ [] := normKeywords_ne_nil ks hne
  show (d.rows ++ [_]).map Row.toEntry = _
  rw [List.map_append]
  simp only [List.map_cons, List.map_nil, Row.toEntry, parseKeywords]
  rw [split_join ';' (normKeywords ks) hne' hsem']
  rfl

/-- C2 witness: the amended round-trip theorem evaluated at a fresh store and
the keyword list ["b", "a"]. -/
theorem add_roundtrip_wit :
    (Diary.create.add ["b".toList, "a".toList] "t".toList "c".toList "now".toList).get_entries =
      Diary.create.get_entries ++
        [⟨Diary.create.nextId,
          entryHash (joinSep ';' (normKeywords ["b".toList, "a".toList]))
            "t".toList "c".toList "now".toList,
          "now".toList, normKeywords ["b".toList, "a".toList],
          "t".toList, "c".toList, false⟩] :=
  add_roundtrip Diary.create ["b".toList, "a".toList] "t".toList "c".toList "now".toList
    (by simp) (by decide)

/-- C9: every entry produced by reading the store has a nonempty keyword list
(splitting on ';' always yields at least one token), so reading the last
keyword cannot fail; in particular an entry added with an empty keyword list
reloads with the single empty-string keyword. -/
theorem get_entries_keywords_nonempty (d : Diary) (e : Entry) (h : e ∈ d.get_entries) :
    (e.keywords ≠ [] ∧ e.keywords.getLast?.isSome = true) ∧
      (Diary.create.add [] [] [] []).get_entries.map Entry.keywords = [[([] : Str)]] := by
  refine ⟨?_, rfl⟩
  obtain ⟨r, _, rfl⟩ := List.mem_map.mp h
  have hne : parseKeywords r.keywords ≠ [] := splitOnChar_ne_nil ';' r.keywords
  refine ⟨hne, ?_⟩
  cases hk : parseKeywords r.keywords with
  | nil => exact absurd hk hne
  | cons y ys =>
    show (Row.toEntry r).keywords.getLast?.isSome = true
    simp [Row.toEntry, hk, List.getLast?_concat]

/-- C9 witness: the theorem evaluated at the concrete store `dogDiary` and its
single entry. -/
theorem get_entries_keywords_nonempty_wit :
    (dogRow.toEntry.keywords ≠ [] ∧ dogRow.toEntry.keywords.getLast?.isSome = true) ∧
      (Diary.create.add [] [] [] []).get_entries.map Entry.keywords = [[([] : Str)]] :=
  get_entries_keywords_nonempty dogDiary dogRow.toEntry (by decide)

/-! ### Lemmas about `hide` -/

/-- A single UPDATE never changes the stored ids. -/
theorem execUpdate_map_id (rows : List Row) (set : Bool) (i : Int) :
    (execUpdate rows set i).1.map Row.id = rows.map Row.id := by
  simp only [execUpdate, List.map_map]
  exact List.map_congr_left fun r _ => by by_cases h : r.id = i <;> simp [h]

/-- A single UPDATE never changes the stored hashes. -/
theorem execUpdate_map_hash (rows : List Row) (set : Bool) (i : Int) :
    (execUpdate rows set i).1.map Row.hash = rows.map Row.hash := by
  simp only [execUpdate, List.map_map]
  exact List.map_congr_left fun r _ => by by_cases h : r.id = i <;> simp [h]

/-- A single UPDATE preserves how many rows carry any given id. -/
theorem execUpdate_filter_len (rows : List Row) (set : Bool) (i j : Int) :
    ((execUpdate rows set i).1.filter fun r => r.id = j).length =
      (rows.filter fun r => r.id = j).length := by
  simp only [execUpdate, ← List.countP_eq_length_filter, List.countP_map]
  refine List.countP_congr fun r _ => ?_
  by_cases h : r.id = i <;> simp [h, Function.comp]

/-- `hide` updates the hidden flag of exactly the rows whose id occurs in the
id list, leaving every other field and row untouched. -/
theorem hide_rows (set : Bool) : ∀ (ids : List Int) (d : Diary),
    (d.hide ids set).1.rows =
      d.rows.map fun r => if r.id ∈ ids then { r with hidden := set } else r := by
  intro ids
  induction ids with
  | nil => intro d; simp [Diary.hide]
  | cons i rest ih =>
    intro d
    simp only [Diary.hide]
    rw [ih]
    simp only [execUpdate, List.map_map]
    refine List.map_congr_left fun r _ => ?_
    by_cases h1 : r.id = i
    · by_cases h2 : r.id ∈ rest <;> simp [h1, h2, List.mem_cons]
    · by_cases h2 : r.id ∈ rest <;> simp [h1, h2, List.mem_cons]

/-- The counter returned by `hide` sums, over the id list, the number of rows
each UPDATE matched. -/
theorem hide_count (set : Bool) : ∀ (ids : List Int) (d : Diary),
    (d.hide ids set).2 =
      (ids.map fun i => (d.rows.filter fun r => r.id = i).length).sum := by
  intro ids
  induction ids with
  | nil => intro d; rfl
  | cons i rest ih =>
    intro d
    simp only [Diary.hide, List.map_cons, List.sum_cons]
    rw [ih]
    congr 1
    exact congrArg List.sum
      (List.map_congr_left fun j _ => execUpdate_filter_len d.rows set i j)

/-- With distinct stored ids, an UPDATE matches one row if the id is present
and none otherwise. -/
theorem filter_len_of_nodup : ∀ rows : List Row, (rows.map Row.id).Nodup → ∀ i : Int,
    (rows.filter fun r => r.id = i).length =
      if rows.any fun r => r.id = i then 1 else 0 := by
  intro rows
  induction rows with
  | nil => intro _ i; rfl
  | cons r t ih =>
    intro h i
    have hne : r.id ∉ t.map Row.id := (List.nodup_cons.mp h).1
    have ht : (t.map Row.id).Nodup := (List.nodup_cons.mp h).2
    by_cases hi : r.id = i
    · have hnil : (t.filter fun r' => r'.id = i) = [] := by
        rw [List.filter_eq_nil_iff]
        intro a ha hai
        exact hne (hi ▸ (by simpa using hai) ▸ List.mem_map_of_mem Row.id ha)
      simp [List.filter, List.any_cons, hi, hnil]
    · simp [List.filter, List.any_cons, hi, ih ht i]

/-- Summing an indicator over a list counts the elements satisfying it. -/
theorem sum_ite_eq_length_filter (p : Int → Bool) : ∀ ids : List Int,
    (ids.map fun i => if p i then 1 else 0).sum = (ids.filter p).length := by
  intro ids
  induction ids with
  | nil => rfl
  | cons i rest ih => by_cases h : p i <;> simp [List.filter, h, ih, Nat.add_comm]

/-- C4: for every id list and flag, `hide` sets the hidden flag of each stored
row whose id is listed, leaves all other rows and fields alone, and returns
the count of rows the UPDATEs matched; a listed id absent from the store
changes nothing, contributes zero to the count and raises no error. -/
theorem hide_sets_flags_and_counts (d : Diary) (ids : List Int) (set : Bool)
    (h : (d.rows.map Row.id).Nodup) :
    (d.hide ids set).1.rows =
        (d.rows.map fun r => if r.id ∈ ids then { r with hidden := set } else r) ∧
      (d.hide ids set).2 = (ids.filter fun i => d.rows.any fun r => r.id = i).length := by
  refine ⟨hide_rows set ids d, ?_⟩
  rw [hide_count set ids d, ← sum_ite_eq_length_filter]
  exact congrArg List.sum (List.map_congr_left fun i _ => filter_len_of_nodup d.rows h i)

/-- C4 witness: the theorem evaluated on `mixedDiary` with one existing id (1)
and one absent id (999): only row 1 is flipped and the count is 1. -/
theorem hide_sets_flags_and_counts_wit :
    (mixedDiary.hide [1, 999] true).1.rows =
        (mixedDiary.rows.map fun r =>
          if r.id ∈ [(1 : Int), 999] then { r with hidden := true } else r) ∧
      (mixedDiary.hide [1, 999] true).2 =
        (([(1 : Int), 999]).filter fun i => mixedDiary.rows.any fun r => r.id = i).length :=
  hide_sets_flags_and_counts mixedDiary [1, 999] true (by decide)

/-- C10: the counter tallies matched ids, not flipped flags: hiding an entry
that is already hidden still returns count 1. -/
theorem hide_counts_matched_row (d : Diary) (i : Int) (r : Row)
    (h : (d.rows.map Row.id).Nodup) (hr : r ∈ d.rows) (hid : r.id = i)
    (hh : r.hidden = true) :
    (d.hide [i] true).2 = 1 := by
  rw [hide_count]
  have hany : (d.rows.any fun r' => r'.id = i) = true := by
    rw [List.any_eq_true]
    exact ⟨r, hr, by simp [hid]⟩
  simp [filter_len_of_nodup d.rows h i, hany]

/-- C10 witness: row 2 of `mixedDiary` is already hidden, yet hiding it again
reports a count of 1. -/
theorem hide_counts_matched_row_wit : (mixedDiary.hide [2] true).2 = 1 :=
  hide_counts_matched_row mixedDiary 2
    ⟨2, [], [], "dog".toList, "Dog walk".toList, [], true⟩
    (by decide) (by decide) (by decide) (by decide)

/-- C5: display shows an entry exactly when it is not hidden or the
show-hidden toggle is set, the reported trailing count equals the number of
entries shown, and — whatever the field toggles — `list_all` on a store with
one visible and one hidden entry reports 1 without the toggle and 2 with
it. -/
theorem print_entries_visible (entries : List Entry)
    (dt idt ht kt ct showHidden : Bool) :
    (∀ e : Entry, e ∈ (print_entries entries dt idt ht kt ct showHidden).1 ↔
        e ∈ entries ∧ (e.hidden = false ∨ showHidden = true)) ∧
      (print_entries entries dt idt ht kt ct showHidden).2 =
        (print_entries entries dt idt ht kt ct showHidden).1.length ∧
      (mixedDiary.list_all dt idt ht kt ct false).2 = 1 ∧
      (mixedDiary.list_all dt idt ht kt ct true).2 = 2 := by
  refine ⟨fun e => ?_, rfl, rfl, rfl⟩
  simp [print_entries, visibleEntries, List.mem_filter, Bool.or_eq_true,
    Bool.not_eq_true']

/-- C7: the stored digest of a freshly added row is `entryHash` of the joined
normalised keywords, title, content and timestamp, so two `add` calls agreeing
on those four values produce identical hashes; and neither `hide` nor
`get_entries` recomputes or mutates any stored hash. -/
theorem hash_deterministic_and_immutable (d d' : Diary) (ks ks' : List Str)
    (t c now : Str) (h : normKeywords ks = normKeywords ks')
    (ids : List Int) (set : Bool) :
    ((d.add ks t c now).rows.map Row.hash).getLast? =
        some (entryHash (joinSep ';' (normKeywords ks)) t c now) ∧
      ((d.add ks t c now).rows.map Row.hash).getLast? =
        ((d'.add ks' t c now).rows.map Row.hash).getLast? ∧
      (d.hide ids set).1.rows.map Row.hash = d.rows.map Row.hash ∧
      d.get_entries.map Entry.hash = d.rows.map Row.hash := by
  have hlast : ∀ (e : Diary) (l : List Str),
      ((e.add l t c now).rows.map Row.hash).getLast? =
        some (entryHash (joinSep ';' (normKeywords l)) t c now) := by
    intro e l
    simp only [Diary.add, List.map_append, List.map_cons, List.map_nil]
    exact List.getLast?_concat _
  refine ⟨hlast d ks, ?_, ?_, ?_⟩
  · rw [hlast d ks, hlast d' ks', h]
  · rw [hide_rows, List.map_map]
    exact List.map_congr_left fun r _ => by by_cases hr : r.id ∈ ids <;> simp [hr]
  · simp only [Diary.get_entries, List.map_map]
    exact List.map_congr_left fun r _ => rfl

/-- C7 witness: two adds over different raw keyword lists with the same
normalisation, plus a hide call, on concrete stores. -/
theorem hash_deterministic_and_immutable_wit :
    ((dogDiary.add ["b".toList, "a".toList] "t".toList "c".toList "n".toList).rows.map
          Row.hash).getLast? =
        some (entryHash (joinSep ';' (normKeywords ["b".toList, "a".toList]))
          "t".toList "c".toList "n".toList) ∧
      ((dogDiary.add ["b".toList, "a".toList] "t".toList "c".toList "n".toList).rows.map
          Row.hash).getLast? =
        ((Diary.create.add ["a".toList, "b".toList, "a".toList] "t".toList "c".toList
            "n".toList).rows.map Row.hash).getLast? ∧
      (dogDiary.hide [1] true).1.rows.map Row.hash = dogDiary.rows.map Row.hash ∧
      dogDiary.get_entries.map Entry.hash = dogDiary.rows.map Row.hash :=
  hash_deterministic_and_immutable dogDiary Diary.create
    ["b".toList, "a".toList] ["a".toList, "b".toList, "a".toList]
    "t".toList "c".toList "n".toList (by decide) [1] true

/-- The id invariant maintained by `add`: all stored ids are positive, below
the AUTOINCREMENT counter, and pairwise increasing. -/
theorem add_id_inv (d : Diary) (ks : List Str) (t c now : Str)
    (h1 : ∀ i ∈ d.rows.map Row.id, 0 < i ∧ i < d.nextId)
    (h2 : (d.rows.map Row.id).Pairwise (· < ·)) (h3 : 0 < d.nextId) :
    (∀ i ∈ (d.add ks t c now).rows.map Row.id, 0 < i ∧ i < (d.add ks t c now).nextId) ∧
      ((d.add ks t c now).rows.map Row.id).Pairwise (· < ·) ∧
      0 < (d.add ks t c now).nextId := by
  simp only [Diary.add, List.map_append, List.map_cons, List.map_nil]
  refine ⟨?_, ?_, by omega⟩
  · intro i hi
    rcases List.mem_append.mp hi with hm | hm
    · rcases h1 i hm with ⟨ha, hb⟩
      exact ⟨ha, by omega⟩
    · rcases List.mem_singleton.mp hm with rfl
      exact ⟨h3, by omega⟩
  · rw [List.pairwise_append]
    refine ⟨h2, List.pairwise_singleton _ _, ?_⟩
    intro a ha b hb
    rcases List.mem_singleton.mp hb with rfl
    exact (h1 a ha).2

/-- The id invariant holds after any sequence of adds from a given store. -/
theorem applyAdds_id_inv :
    ∀ (ops : List (List Str × Str × Str × Str)) (d : Diary),
      (∀ i ∈ d.rows.map Row.id, 0 < i ∧ i < d.nextId) →
      (d.rows.map Row.id).Pairwise (· < ·) → 0 < d.nextId →
      (∀ i ∈ (applyAdds d ops).rows.map Row.id, 0 < i ∧ i < (applyAdds d ops).nextId) ∧
        ((applyAdds d ops).rows.map Row.id).Pairwise (· < ·) ∧
        0 < (applyAdds d ops).nextId := by
  intro ops
  induction ops with
  | nil => intro d h1 h2 h3; exact ⟨h1, h2, h3⟩
  | cons op rest ih =>
    intro d h1 h2 h3
    obtain ⟨ks, t, c, n⟩ := op
    obtain ⟨g1, g2, g3⟩ := add_id_inv d ks t c n h1 h2 h3
    exact ih (d.add ks t c n) g1 g2 g3

/-- C8: across any sequence of `add` calls on a fresh store, the assigned ids
are positive, strictly increasing in storage order, and pairwise distinct, so
no id is ever reused. -/
theorem add_ids_increasing (ops : List (List Str × Str × Str × Str)) :
    ((applyAdds Diary.create ops).rows.map Row.id).Chain' (· < ·) ∧
      (∀ i ∈ (applyAdds Diary.create ops).rows.map Row.id, 0 < i) ∧
      ((applyAdds Diary.create ops).rows.map Row.id).Nodup := by
  obtain ⟨g1, g2, _⟩ :=
    applyAdds_id_inv ops Diary.create (by simp [Diary.create])
      (by simp [Diary.create]) (by simp [Diary.create])
  exact ⟨g2.chain', fun i hi => (g1 i hi).1, g2.imp fun hab => ne_of_lt hab⟩

end DigitalDiary
